import Mathlib

/-!
Shallow embedding of the FRI folding-schedule estimator.

Source functions embedded here:
* `estimate_proof_size` and `optimal_folding_strategy` from
  `src/optimized_schedule.rs`;
* `simple_schedule` and `num_rounds` from `src/simple_schedule.rs`.

Modelling conventions:
* `usize` values are modelled as `Nat` (no claim depends on wrap-around).
* Rust's `ilog2` is modelled by the structurally recursive `ilog2` below,
  which agrees with `Nat.log2` on every positive input, i.e. everywhere
  Rust's `ilog2` is defined.  Rust panics at `ilog2 0`; the two places the
  search in `optimized_schedule.rs` can actually reach that panic — inside
  the `estimate_proof_size` call on a schedule whose walk drives a layer
  degree to zero, and in the cap computation
  `(current_layer_degree / blowup_factor).ilog2()` when the layer degree
  drops below the blowup factor — are modelled explicitly: the search's
  recursion returns `none` (a panic, surfaced as `SearchResult.panic` by
  the wrapper) exactly there, instead of a value.
* The `debug_assert!` precondition checks are modelled as an
  `invalidParameter` result (the spec's `InvalidParameter` error kind),
  the explicit `assert!` of `simple_schedule` as a distinct
  `assertionFailure` result, and the `while` loop of `num_rounds` runs on
  explicit fuel, with exhaustion reported as `nonTermination` (the fuel
  `degree + 1` is proved sufficient whenever the folding factor is
  positive, and the loop is proved to exhaust every fuel when it is zero).
* The recursion of `optimal_folding_strategy` also runs on fuel
  `degree + 1`; `optimal_folding_core_stable` below shows the result is the
  same for every sufficient fuel, i.e. the wrapper computes the limit of
  the recursion.
-/

/-- Constant `ELEMENTS_IN_HASH_OUTPUT` from `optimized_schedule.rs`. -/
def ELEMENTS_IN_HASH_OUTPUT : Nat := 4

/-- Constant `FE_IN_EACH_ELEMENTS` from `optimized_schedule.rs`. -/
def FE_IN_EACH_ELEMENTS : Nat := 2

/-- Fueled floor base-2 logarithm; with fuel at least `n` this is the value
of Rust's `usize::ilog2` (totalised with value `0` at `n = 0`). -/
def ilog2_fueled : Nat → Nat → Nat
  | 0, _ => 0
  | fuel + 1, n => if 2 ≤ n then ilog2_fueled fuel (n / 2) + 1 else 0

/-- Rust's `usize::ilog2` on positive inputs.  Rust panics at zero; the
call sites the repository can reach with a zero argument (both in the
exhaustive search) are guarded in `optimal_folding_go` below, which
returns a panic outcome there instead of consulting this value. -/
def ilog2 (n : Nat) : Nat := ilog2_fueled n n

/-- Rust's `usize::is_power_of_two`. -/
def is_power_of_two (n : Nat) : Bool := (n == 2 ^ ilog2 n) && (n != 0)

/-- The `for folding_factors_bits in folding_seq` loop of
`estimate_proof_size`, carrying the current layer degree and the element
count accumulated so far; the `[]` case adds the remainder-polynomial term
that follows the loop in the source. -/
def estimate_loop (blowup_factor num_queries : Nat) :
    Nat → Nat → List Nat → Nat
  | current_layer_degree, num_elements, [] =>
      num_elements + current_layer_degree / blowup_factor * FE_IN_EACH_ELEMENTS
  | current_layer_degree, num_elements, folding_factors_bits :: rest =>
      estimate_loop blowup_factor num_queries
        (current_layer_degree / 2 ^ folding_factors_bits)
        (num_elements
          + num_queries * ilog2 current_layer_degree * ELEMENTS_IN_HASH_OUTPUT
          + num_queries * 2 ^ folding_factors_bits * FE_IN_EACH_ELEMENTS)
        rest

/-- Function `estimate_proof_size` from `optimized_schedule.rs`. -/
def estimate_proof_size (degree blowup_factor num_queries : Nat)
    (folding_seq : List Nat) : Nat :=
  estimate_loop blowup_factor num_queries degree 0 folding_seq

/-- Formalisation of the cost formula exactly as the specification words it:
walk the schedule in order, starting from `degree`; each entry `b`
(factor `f = 2^b`) contributes `num_queries * log2 current * 4` plus
`num_queries * f * 2` and floor-divides the current degree by `f`; after
the walk add `(current / blowup_factor) * 2`. -/
def estimate_proof_size_spec (degree blowup_factor num_queries : Nat) :
    List Nat → Nat
  | [] => degree / blowup_factor * 2
  | b :: rest =>
      num_queries * ilog2 degree * 4 + num_queries * 2 ^ b * 2
        + estimate_proof_size_spec (degree / 2 ^ b) blowup_factor num_queries rest

/-- The `for factor in 1..=max` selection loop of
`optimal_folding_strategy`: fold over the candidate factors, replacing the
best candidate whenever a branch result is strictly smaller. -/
def pickMin (h : Nat → Nat × List Nat) (init : Nat × List Nat)
    (l : List Nat) : Nat × List Nat :=
  l.foldl (fun best factor => if (h factor).1 < best.1 then h factor else best) init

/-- The value computed by the recursion of `optimal_folding_strategy` on
panic-free nodes, on explicit fuel.  Each recursive call strictly
decreases the current layer degree `degree / 2 ^ seq.sum`, which is at
most `degree`, so fuel `degree + 1` always suffices
(`optimal_folding_core_stable`); `optimal_folding_go_eq_some` below shows
the faithful, panic-aware recursion returns exactly `some` of this value
whenever the node's layer degree is at least the blowup factor. -/
def optimal_folding_core :
    Nat → Nat → Nat → Nat → List Nat → Nat × List Nat
  | 0, degree, blowup_factor, num_queries, current_folding_seq =>
      (estimate_proof_size degree blowup_factor num_queries current_folding_seq,
        current_folding_seq)
  | fuel + 1, degree, blowup_factor, num_queries, current_folding_seq =>
      let current_layer_degree := degree / 2 ^ current_folding_seq.sum
      let max_folding_factor :=
        min (ilog2 (current_layer_degree / blowup_factor)) 4
      pickMin
        (fun factor =>
          optimal_folding_core fuel degree blowup_factor num_queries
            (current_folding_seq ++ [factor]))
        (estimate_proof_size degree blowup_factor num_queries current_folding_seq,
          current_folding_seq)
        (List.range' 1 max_folding_factor)

/-- Success of the `ilog2` calls inside `estimate_proof_size`: Rust panics
there as soon as the walked layer degree reaches zero, so the walk is
panic-free exactly when every visited layer degree is positive. -/
def estimate_walk_ok (degree : Nat) : List Nat → Bool
  | [] => true
  | folding_factors_bits :: rest =>
      decide (1 ≤ degree) &&
        estimate_walk_ok (degree / 2 ^ folding_factors_bits) rest

/-- The `for factor in 1..=max` selection loop with panic propagation: if
a recursive call panics (`none`), the whole loop panics, exactly as a
Rust panic unwinds out of the loop. -/
def pickMinOpt (h : Nat → Option (Nat × List Nat)) (init : Nat × List Nat) :
    List Nat → Option (Nat × List Nat)
  | [] => some init
  | factor :: l =>
      match h factor with
      | none => none
      | some r => pickMinOpt h (if r.1 < init.1 then r else init) l

/-- The recursion of `optimal_folding_strategy`, panic-aware: `none`
models a Rust panic.  A node panics when its `estimate_proof_size` call
walks a layer degree down to zero (first guard, `estimate_walk_ok`), or
when `current_layer_degree / blowup_factor = 0` so that the cap
computation `(current_layer_degree / blowup_factor).ilog2()` at
`optimized_schedule.rs:46` is `(0).ilog2()` (second guard; this also
covers the division-by-zero panic for `blowup_factor = 0`); otherwise it
behaves as `optimal_folding_core`, with panics of recursive calls
propagated by `pickMinOpt`.  Fuel `degree + 1` is proved sufficient. -/
def optimal_folding_go :
    Nat → Nat → Nat → Nat → List Nat → Option (Nat × List Nat)
  | 0, _, _, _, _ => none
  | fuel + 1, degree, blowup_factor, num_queries, current_folding_seq =>
      if estimate_walk_ok degree current_folding_seq then
        let current_layer_degree := degree / 2 ^ current_folding_seq.sum
        if 1 ≤ current_layer_degree / blowup_factor then
          let max_folding_factor :=
            min (ilog2 (current_layer_degree / blowup_factor)) 4
          pickMinOpt
            (fun factor =>
              optimal_folding_go fuel degree blowup_factor num_queries
                (current_folding_seq ++ [factor]))
            (estimate_proof_size degree blowup_factor num_queries
                current_folding_seq,
              current_folding_seq)
            (List.range' 1 max_folding_factor)
        else none
      else none

/-- Outcomes of `optimal_folding_strategy` in the embedding: a result
pair, the spec's `InvalidParameter` for the `debug_assert!` power-of-two
checks, or a panic in one of the `ilog2` calls. -/
inductive SearchResult where
  | ok : Nat → List Nat → SearchResult
  | invalidParameter : SearchResult
  | panic : SearchResult
deriving DecidableEq

/-- Function `optimal_folding_strategy` from `optimized_schedule.rs`; the
two `debug_assert!` power-of-two checks are modelled as the spec's
`InvalidParameter` failure, and the `ilog2`-of-zero panics the function
can reach (layer degree below the blowup factor) as `SearchResult.panic`. -/
def optimal_folding_strategy (degree blowup_factor num_queries : Nat)
    (current_folding_seq : List Nat) : SearchResult :=
  if is_power_of_two degree && is_power_of_two blowup_factor then
    match optimal_folding_go (degree + 1) degree blowup_factor num_queries
        current_folding_seq with
    | some (optimal_proof, optimal_sequences) =>
        SearchResult.ok optimal_proof optimal_sequences
    | none => SearchResult.panic
  else SearchResult.invalidParameter

/-- The `while current_degree / folding_factor >= remainder_poly_degree`
loop of `num_rounds`, on explicit fuel (`none` models a computation that
has not finished within the fuel; for `folding_factor = 1` the loop body
never changes the state, so every fuel is exhausted). -/
def num_rounds_loop : Nat → Nat → Nat → Nat → Nat → Option (Nat × Nat)
  | 0, _, _, _, _ => none
  | fuel + 1, current_degree, folding_factor, remainder_poly_degree, rounds =>
      if remainder_poly_degree ≤ current_degree / folding_factor then
        num_rounds_loop fuel (current_degree / folding_factor) folding_factor
          remainder_poly_degree (rounds + 1)
      else
        some (current_degree, rounds)

/-- Function `num_rounds` from `simple_schedule.rs`: count the rounds (starting at
one) and compute the last-round adjustment exponent. -/
def num_rounds (degree folding_factor remainder_poly_degree : Nat) :
    Option (Nat × Nat) :=
  match num_rounds_loop (degree + 1) degree (2 ^ folding_factor)
      remainder_poly_degree 1 with
  | none => none
  | some (current_degree, rounds) =>
      some (rounds,
        if remainder_poly_degree < current_degree then
          ilog2 (current_degree / remainder_poly_degree)
        else 0)

/-- Possible outcomes of `simple_schedule` in the embedding: a result pair,
an `InvalidParameter` precondition failure (the `debug_assert!` checks), a
failure of the explicit `assert!` on the last-round fold, or
non-termination of the round-counting loop. -/
inductive SchedResult where
  | ok : Nat → List Nat → SchedResult
  | invalidParameter : SchedResult
  | assertionFailure : SchedResult
  | nonTermination : SchedResult
deriving DecidableEq

/-- The schedule component of a `simple_schedule` result, when any. -/
def SchedResult.schedule : SchedResult → Option (List Nat)
  | SchedResult.ok _ s => some s
  | _ => none

/-- Function `simple_schedule` from `simple_schedule.rs`.  Here `vec![0]` resized to
`num_rounds` entries with fill `folding_factor` is
`0 :: List.replicate (num_rounds - 1) folding_factor` (the loop starts its
count at one, so `num_rounds ≥ 1` and `resize` never truncates). -/
def simple_schedule (degree blowup_factor num_queries remainder_poly_degree
    folding_factor : Nat) : SchedResult :=
  if is_power_of_two degree && is_power_of_two blowup_factor &&
      is_power_of_two remainder_poly_degree &&
      decide (remainder_poly_degree ≤ degree / blowup_factor) then
    match num_rounds (degree / blowup_factor) folding_factor
        remainder_poly_degree with
    | none => SchedResult.nonTermination
    | some (n, last_round_fold) =>
        if is_power_of_two last_round_fold || last_round_fold == 0 then
          let folding_schedule :=
            if 1 < last_round_fold then
              0 :: (List.replicate (n - 1) folding_factor ++ [last_round_fold])
            else
              0 :: List.replicate (n - 1) folding_factor
          SchedResult.ok
            (estimate_proof_size degree blowup_factor num_queries
              folding_schedule)
            folding_schedule
        else SchedResult.assertionFailure
  else SchedResult.invalidParameter

/-- Replaying a schedule's divisions against a starting degree: fold over
the entries, floor-dividing by each entry's factor in round order. -/
def replaySchedule (working_degree : Nat) (schedule : List Nat) : Nat :=
  schedule.foldl (fun current_degree bits => current_degree / 2 ^ bits)
    working_degree

/-- Schedules obtainable from a seed by repeatedly appending one exponent
between `1` and the per-node cap
`min (log2 (current_layer_degree / blowup_factor)) 4`, where
`current_layer_degree = degree / 2 ^ (sum of the entries so far)` — the
tree explored by `optimal_folding_strategy`, the seed itself included. -/
inductive Reachable (degree blowup_factor : Nat) : List Nat → List Nat → Prop
  | refl (s : List Nat) : Reachable degree blowup_factor s s
  | step (s t : List Nat) (factor : Nat) :
      Reachable degree blowup_factor s t →
      1 ≤ factor →
      factor ≤ min (ilog2 (degree / 2 ^ t.sum / blowup_factor)) 4 →
      Reachable degree blowup_factor s (t ++ [factor])

example : estimate_proof_size 8 2 1 [0, 1] = 34 := by decide
example : simple_schedule 8 2 1 2 1 = SchedResult.ok 34 [0, 1] := by decide
example : simple_schedule 1024 2 1 4 2 = SchedResult.ok 178 [0, 2, 2, 2] := by decide
example : simple_schedule 1024 2 1 4 4 = SchedResult.assertionFailure := by decide
example : (simple_schedule 2048 2 1 4 3).schedule = some [0, 3, 3, 2] := by decide
example : simple_schedule 8 2 1 2 0 = SchedResult.nonTermination := by decide
example : optimal_folding_core 9 8 2 1 [0] = (22, [0]) := by decide
example : optimal_folding_go 9 8 2 1 [0] = some (22, [0]) := by decide
example : optimal_folding_strategy 8 2 1 [0] = SearchResult.ok 22 [0] := by decide
example : optimal_folding_strategy 2 8 1 [0] = SearchResult.panic := by decide

/-- With fuel at least `n`, the fueled logarithm computes `Nat.log2`. -/
theorem ilog2_fueled_eq : ∀ (fuel n : Nat), n ≤ fuel → ilog2_fueled fuel n = Nat.log2 n
  | 0, n, h => by
      have hn : n = 0 := Nat.le_zero.mp h
      subst hn
      rw [Nat.log2]
      simp [ilog2_fueled]
  | fuel + 1, n, h => by
      rw [Nat.log2, ilog2_fueled]
      by_cases h2 : 2 ≤ n
      · have hlt : n / 2 < n := Nat.div_lt_self (by omega) (by omega)
        rw [if_pos h2, if_pos (by omega : n ≥ 2),
          ilog2_fueled_eq fuel (n / 2) (by omega)]
      · rw [if_neg h2, if_neg (by omega : ¬ n ≥ 2)]

/-- The embedding's `ilog2` agrees with `Nat.log2` everywhere. -/
theorem ilog2_eq_log2 (n : Nat) : ilog2 n = Nat.log2 n :=
  ilog2_fueled_eq n n le_rfl

theorem ilog2_eq_log (n : Nat) : ilog2 n = Nat.log 2 n := by
  rw [ilog2_eq_log2, Nat.log2_eq_log_two]

theorem ilog2_two_pow (k : Nat) : ilog2 (2 ^ k) = k := by
  rw [ilog2_eq_log, Nat.log_pow one_lt_two]

theorem ilog2_zero : ilog2 0 = 0 := rfl

theorem is_power_of_two_iff (n : Nat) :
    is_power_of_two n = true ↔ ∃ k, n = 2 ^ k := by
  constructor
  · intro h
    simp only [is_power_of_two, Bool.and_eq_true, beq_iff_eq, bne_iff_ne, ne_eq] at h
    exact ⟨ilog2 n, h.1⟩
  · rintro ⟨k, rfl⟩
    simp only [is_power_of_two, Bool.and_eq_true, beq_iff_eq, bne_iff_ne, ne_eq]
    exact ⟨by rw [ilog2_two_pow], (pow_pos (by omega : (0:Nat) < 2) k).ne'⟩

theorem pickMin_nil (h : Nat → Nat × List Nat) (init : Nat × List Nat) :
    pickMin h init [] = init := rfl

theorem pickMin_cons (h : Nat → Nat × List Nat) (init : Nat × List Nat)
    (a : Nat) (l : List Nat) :
    pickMin h init (a :: l) =
      pickMin h (if (h a).1 < init.1 then h a else init) l := rfl

theorem pickMin_fst_le_init (h : Nat → Nat × List Nat) :
    ∀ (l : List Nat) (init : Nat × List Nat), (pickMin h init l).1 ≤ init.1
  | [], _ => le_rfl
  | a :: l, init => by
      rw [pickMin_cons]
      refine le_trans (pickMin_fst_le_init h l _) ?_
      split
      · exact Nat.le_of_lt (by assumption)
      · exact le_rfl

theorem pickMin_fst_le_mem (h : Nat → Nat × List Nat) :
    ∀ (l : List Nat) (init : Nat × List Nat) (f : Nat), f ∈ l →
      (pickMin h init l).1 ≤ (h f).1
  | [], _, _, hf => absurd hf (List.not_mem_nil _)
  | a :: l, init, f, hf => by
      rw [pickMin_cons]
      rcases List.mem_cons.mp hf with rfl | hf
      · refine le_trans (pickMin_fst_le_init h l _) ?_
        split
        · exact le_rfl
        · exact Nat.le_of_not_lt (by assumption)
      · exact pickMin_fst_le_mem h l _ f hf

theorem pickMin_eq_init_or_mem (h : Nat → Nat × List Nat) :
    ∀ (l : List Nat) (init : Nat × List Nat),
      pickMin h init l = init ∨ ∃ f, f ∈ l ∧ pickMin h init l = h f
  | [], _ => Or.inl rfl
  | a :: l, init => by
      rw [pickMin_cons]
      rcases pickMin_eq_init_or_mem h l
          (if (h a).1 < init.1 then h a else init) with heq | ⟨f, hf, heq⟩
      · rw [heq]
        split
        · exact Or.inr ⟨a, List.mem_cons_self a l, rfl⟩
        · exact Or.inl rfl
      · exact Or.inr ⟨f, List.mem_cons_of_mem a hf, heq⟩

theorem pickMin_congr {h₁ h₂ : Nat → Nat × List Nat} :
    ∀ {l : List Nat} (init : Nat × List Nat), (∀ f ∈ l, h₁ f = h₂ f) →
      pickMin h₁ init l = pickMin h₂ init l
  | [], _, _ => rfl
  | a :: l, init, hl => by
      rw [pickMin_cons, pickMin_cons, hl a (List.mem_cons_self a l)]
      exact pickMin_congr _ fun f hf => hl f (List.mem_cons_of_mem a hf)

theorem estimate_loop_eq (blowup_factor num_queries : Nat) :
    ∀ (s : List Nat) (cur acc : Nat),
      estimate_loop blowup_factor num_queries cur acc s =
        acc + estimate_proof_size_spec cur blowup_factor num_queries s
  | [], cur, acc => rfl
  | b :: rest, cur, acc => by
      simp only [estimate_loop, estimate_proof_size_spec,
        ELEMENTS_IN_HASH_OUTPUT, FE_IN_EACH_ELEMENTS]
      rw [estimate_loop_eq blowup_factor num_queries rest]
      omega

/-- C2: `estimate_proof_size` computes exactly the specification's closed
cost formula: walking the schedule in order from `degree`, each entry `b`
(factor `f = 2^b`) adds `num_queries * log2(current) * 4` and
`num_queries * f * 2` and floor-divides the current degree by `f`, and a
final term `(current / blowup_factor) * 2` is added after the walk; all
divisions are floor divisions and `log2 1 = 0`. -/
theorem claim_C2_estimate_formula (degree blowup_factor num_queries : Nat)
    (folding_seq : List Nat) :
    estimate_proof_size degree blowup_factor num_queries folding_seq =
      estimate_proof_size_spec degree blowup_factor num_queries folding_seq := by
  rw [estimate_proof_size, estimate_loop_eq, Nat.zero_add]

theorem estimate_spec_mono (blowup_factor : Nat) {q₁ q₂ : Nat} (h : q₁ ≤ q₂) :
    ∀ (s : List Nat) (cur : Nat),
      estimate_proof_size_spec cur blowup_factor q₁ s ≤
        estimate_proof_size_spec cur blowup_factor q₂ s
  | [], _ => le_rfl
  | b :: rest, cur => by
      simp only [estimate_proof_size_spec]
      have hr := estimate_spec_mono blowup_factor h rest (cur / 2 ^ b)
      have h1 : q₁ * ilog2 cur * 4 ≤ q₂ * ilog2 cur * 4 :=
        Nat.mul_le_mul_right 4 (Nat.mul_le_mul_right _ h)
      have h2 : q₁ * 2 ^ b * 2 ≤ q₂ * 2 ^ b * 2 :=
        Nat.mul_le_mul_right 2 (Nat.mul_le_mul_right _ h)
      omega

/-- C8: for every schedule, degree and blowup factor, the estimated proof
size is monotone non-decreasing in the number of queries. -/
theorem claim_C8_monotone_queries (degree blowup_factor : Nat)
    (schedule : List Nat) {q₁ q₂ : Nat} (h : q₁ ≤ q₂) :
    estimate_proof_size degree blowup_factor q₁ schedule ≤
      estimate_proof_size degree blowup_factor q₂ schedule := by
  rw [estimate_proof_size, estimate_loop_eq, estimate_proof_size,
    estimate_loop_eq]
  exact Nat.add_le_add_left (estimate_spec_mono blowup_factor h schedule degree) 0

/-- Witness for C8 at a concrete input. -/
theorem claim_C8_monotone_queries_witness :
    1 ≤ 2 ∧
      estimate_proof_size 8 2 1 [0, 1] ≤ estimate_proof_size 8 2 2 [0, 1] :=
  ⟨by decide, claim_C8_monotone_queries 8 2 [0, 1] (by decide)⟩

theorem optimal_folding_core_succ (fuel degree blowup_factor num_queries : Nat)
    (s : List Nat) :
    optimal_folding_core (fuel + 1) degree blowup_factor num_queries s =
      pickMin
        (fun factor =>
          optimal_folding_core fuel degree blowup_factor num_queries (s ++ [factor]))
        (estimate_proof_size degree blowup_factor num_queries s, s)
        (List.range' 1 (min (ilog2 (degree / 2 ^ s.sum / blowup_factor)) 4)) :=
  rfl

theorem cur_append_eq (d : Nat) (s : List Nat) (f : Nat) :
    d / 2 ^ (s ++ [f]).sum = d / 2 ^ s.sum / 2 ^ f := by
  rw [show (s ++ [f]).sum = s.sum + f by simp, pow_add, ← Nat.div_div_eq_div_mul]

/-- Any factor inside the per-node cap range is positive and strictly
shrinks the current layer degree. -/
theorem mem_cap_imp (d b : Nat) (s : List Nat) {f : Nat}
    (hf : f ∈ List.range' 1 (min (ilog2 (d / 2 ^ s.sum / b)) 4)) :
    1 ≤ f ∧ d / 2 ^ (s ++ [f]).sum < d / 2 ^ s.sum := by
  obtain ⟨h1, h2⟩ := List.mem_range'_1.mp hf
  have hmin : f ≤ min (ilog2 (d / 2 ^ s.sum / b)) 4 := by omega
  have hle : f ≤ ilog2 (d / 2 ^ s.sum / b) := le_trans hmin (min_le_left _ _)
  have hcur : 0 < d / 2 ^ s.sum := by
    rcases Nat.eq_zero_or_pos (d / 2 ^ s.sum) with h0 | hpos
    · rw [h0, Nat.zero_div, ilog2_zero] at hle
      omega
    · exact hpos
  refine ⟨h1, ?_⟩
  rw [cur_append_eq]
  exact Nat.div_lt_self hcur (Nat.one_lt_two_pow_iff.mpr (by omega))

/-- The fueled search result does not depend on the fuel, as long as the
fuel exceeds the current layer degree: the recursion is well defined and
the wrapper's fuel `degree + 1` computes its limit. -/
theorem optimal_folding_core_stable (d b q : Nat) :
    ∀ (fuel₁ : Nat) (s : List Nat) (fuel₂ : Nat),
      d / 2 ^ s.sum < fuel₁ → d / 2 ^ s.sum < fuel₂ →
      optimal_folding_core fuel₁ d b q s = optimal_folding_core fuel₂ d b q s
  | 0, _, _, h1, _ => absurd h1 (Nat.not_lt_zero _)
  | _ + 1, _, 0, _, h2 => absurd h2 (Nat.not_lt_zero _)
  | fuel₁ + 1, s, fuel₂ + 1, h1, h2 => by
      rw [optimal_folding_core_succ, optimal_folding_core_succ]
      refine pickMin_congr _ fun f hf => ?_
      obtain ⟨-, hlt⟩ := mem_cap_imp d b s hf
      exact optimal_folding_core_stable d b q fuel₁ (s ++ [f]) fuel₂
        (by omega) (by omega)

theorem optimal_folding_core_fst_le_self (fuel d b q : Nat) (s : List Nat) :
    (optimal_folding_core fuel d b q s).1 ≤ estimate_proof_size d b q s := by
  cases fuel with
  | zero => exact le_rfl
  | succ fuel =>
      rw [optimal_folding_core_succ]
      exact pickMin_fst_le_init _ _ _

theorem optimal_folding_core_fst_le_step (d b q : Nat) (s : List Nat) {f : Nat}
    (hf : f ∈ List.range' 1 (min (ilog2 (d / 2 ^ s.sum / b)) 4)) :
    (optimal_folding_core (d + 1) d b q s).1 ≤
      (optimal_folding_core (d + 1) d b q (s ++ [f])).1 := by
  rw [optimal_folding_core_succ]
  refine le_trans (pickMin_fst_le_mem _ _ _ f hf) ?_
  obtain ⟨-, hlt⟩ := mem_cap_imp d b s hf
  have hcur : d / 2 ^ s.sum ≤ d := Nat.div_le_self d _
  rw [optimal_folding_core_stable d b q d (s ++ [f]) (d + 1) (by omega) (by omega)]

theorem Reachable.trans {d b : Nat} {s t u : List Nat}
    (h1 : Reachable d b s t) (h2 : Reachable d b t u) : Reachable d b s u := by
  induction h2 with
  | refl => exact h1
  | step t' f _ hf1 hf2 ih => exact Reachable.step s t' f ih hf1 hf2

theorem optimal_folding_core_fst_le_reach (d b q : Nat) {seed s : List Nat}
    (h : Reachable d b seed s) :
    (optimal_folding_core (d + 1) d b q seed).1 ≤
      (optimal_folding_core (d + 1) d b q s).1 := by
  induction h with
  | refl => exact le_rfl
  | step t f _ hf1 hf2 ih =>
      refine le_trans ih (optimal_folding_core_fst_le_step d b q t ?_)
      exact List.mem_range'_1.mpr ⟨hf1, by omega⟩

theorem optimal_folding_core_achieves (d b q : Nat) :
    ∀ (fuel : Nat) (s : List Nat), d / 2 ^ s.sum < fuel →
      Reachable d b s (optimal_folding_core fuel d b q s).2 ∧
      (optimal_folding_core fuel d b q s).1 =
        estimate_proof_size d b q (optimal_folding_core fuel d b q s).2
  | 0, _, h => absurd h (Nat.not_lt_zero _)
  | fuel + 1, s, h => by
      rw [optimal_folding_core_succ]
      rcases pickMin_eq_init_or_mem
          (fun f => optimal_folding_core fuel d b q (s ++ [f]))
          (List.range' 1 (min (ilog2 (d / 2 ^ s.sum / b)) 4))
          (estimate_proof_size d b q s, s) with heq | ⟨f, hf, heq⟩
      · rw [heq]
        exact ⟨Reachable.refl s, rfl⟩
      · rw [heq]
        obtain ⟨h1, hlt⟩ := mem_cap_imp d b s hf
        have hcap : f ≤ min (ilog2 (d / 2 ^ s.sum / b)) 4 := by
          have := List.mem_range'_1.mp hf
          omega
        have ih := optimal_folding_core_achieves d b q fuel (s ++ [f]) (by omega)
        exact ⟨(Reachable.step s s f (Reachable.refl s) h1 hcap).trans ih.1, ih.2⟩

/-- A layer degree positive along the whole walk makes the estimate's
`ilog2` calls panic-free: every visited degree is at least the final one. -/
theorem estimate_walk_ok_true_of_pos :
    ∀ (s : List Nat) (d : Nat), 1 ≤ d / 2 ^ s.sum →
      estimate_walk_ok d s = true
  | [], _, _ => rfl
  | b :: rest, d, h => by
      simp only [estimate_walk_ok, Bool.and_eq_true, decide_eq_true_eq]
      have hsum : d / 2 ^ (b :: rest).sum = d / 2 ^ b / 2 ^ rest.sum := by
        rw [List.sum_cons, pow_add, ← Nat.div_div_eq_div_mul]
      rw [hsum] at h
      have h1 : 1 ≤ d / 2 ^ b := le_trans h (Nat.div_le_self _ _)
      exact ⟨le_trans h1 (Nat.div_le_self _ _),
        estimate_walk_ok_true_of_pos rest (d / 2 ^ b) h⟩

/-- A node whose layer degree is at least the blowup factor only spawns
children with the same property: the appended factor is at most
`log2 (current_layer_degree / blowup_factor)`, so at least one multiple
of the blowup factor survives the division. -/
theorem node_ok_step (d b : Nat) (s : List Nat) {f : Nat}
    (hnode : 1 ≤ d / 2 ^ s.sum / b)
    (hf : f ∈ List.range' 1 (min (ilog2 (d / 2 ^ s.sum / b)) 4)) :
    1 ≤ d / 2 ^ (s ++ [f]).sum / b := by
  obtain ⟨h1, h2⟩ := List.mem_range'_1.mp hf
  have hmin : f ≤ min (ilog2 (d / 2 ^ s.sum / b)) 4 := by omega
  have hle : f ≤ ilog2 (d / 2 ^ s.sum / b) := le_trans hmin (min_le_left _ _)
  have hb : 0 < b := by
    rcases Nat.eq_zero_or_pos b with rfl | hb
    · rw [Nat.div_zero] at hnode
      omega
    · exact hb
  have hx : d / 2 ^ s.sum / b ≠ 0 := by omega
  have hpow : 2 ^ f ≤ d / 2 ^ s.sum / b := by
    rw [ilog2_eq_log] at hle
    exact (Nat.pow_le_iff_le_log one_lt_two hx).mpr hle
  have hmul : 2 ^ f * b ≤ d / 2 ^ s.sum := (Nat.le_div_iff_mul_le hb).mp hpow
  rw [cur_append_eq, Nat.div_div_eq_div_mul]
  have hpos : 0 < 2 ^ f * b := Nat.mul_pos (pow_pos (by omega) f) hb
  exact (Nat.one_le_div_iff hpos).mpr hmul

theorem pickMinOpt_eq_pickMin {h : Nat → Option (Nat × List Nat)}
    {g : Nat → Nat × List Nat} :
    ∀ (l : List Nat) (init : Nat × List Nat), (∀ f ∈ l, h f = some (g f)) →
      pickMinOpt h init l = some (pickMin g init l)
  | [], _, _ => rfl
  | a :: l, init, hl => by
      have ha := hl a (List.mem_cons_self a l)
      have step : pickMinOpt h init (a :: l) =
          pickMinOpt h (if (g a).1 < init.1 then g a else init) l := by
        have hun : pickMinOpt h init (a :: l) =
            (match h a with
              | none => none
              | some r =>
                  pickMinOpt h (if r.1 < init.1 then r else init) l) := rfl
        rw [hun, ha]
      rw [step, pickMin_cons]
      exact pickMinOpt_eq_pickMin l _ fun f hf =>
        hl f (List.mem_cons_of_mem a hf)

/-- On panic-free nodes the faithful recursion succeeds with exactly the
value computed by `optimal_folding_core`. -/
theorem optimal_folding_go_eq_some (d b q : Nat) :
    ∀ (fuel : Nat) (s : List Nat), 1 ≤ d / 2 ^ s.sum / b →
      d / 2 ^ s.sum < fuel →
      optimal_folding_go fuel d b q s =
        some (optimal_folding_core fuel d b q s)
  | 0, _, _, hfuel => absurd hfuel (Nat.not_lt_zero _)
  | fuel + 1, s, hnode, hfuel => by
      have hb : 0 < b := by
        rcases Nat.eq_zero_or_pos b with rfl | hb
        · rw [Nat.div_zero] at hnode
          omega
        · exact hb
      have hcurpos : 1 ≤ d / 2 ^ s.sum :=
        le_trans hb ((Nat.one_le_div_iff hb).mp hnode)
      have hwalk : estimate_walk_ok d s = true :=
        estimate_walk_ok_true_of_pos s d hcurpos
      simp only [optimal_folding_go]
      rw [if_pos hwalk, if_pos hnode, optimal_folding_core_succ]
      exact pickMinOpt_eq_pickMin _ _ fun f hf =>
        optimal_folding_go_eq_some d b q fuel (s ++ [f])
          (node_ok_step d b s hnode hf)
          (by
            obtain ⟨-, hlt⟩ := mem_cap_imp d b s hf
            omega)

/-- Nodes whose layer degree falls below the blowup factor panic: the cap
computation is `(0).ilog2()` there. -/
theorem optimal_folding_go_none_of_zero (fuel d b q : Nat) (s : List Nat)
    (h : d / 2 ^ s.sum / b = 0) :
    optimal_folding_go (fuel + 1) d b q s = none := by
  simp only [optimal_folding_go]
  by_cases hwalk : estimate_walk_ok d s = true
  · rw [if_pos hwalk, if_neg (by simp [h])]
  · rw [if_neg hwalk]

theorem optimal_folding_go_some_pos {fuel d b q : Nat} {s : List Nat}
    {r : Nat × List Nat}
    (h : optimal_folding_go (fuel + 1) d b q s = some r) :
    1 ≤ d / 2 ^ s.sum / b := by
  by_contra hc
  have h0 : d / 2 ^ s.sum / b = 0 := Nat.lt_one_iff.mp (Nat.not_le.mp hc)
  rw [optimal_folding_go_none_of_zero fuel d b q s h0] at h
  exact Option.noConfusion h

theorem optimal_folding_strategy_eq_ok {d b q sz : Nat} {seed sched : List Nat}
    (hd : is_power_of_two d = true) (hb : is_power_of_two b = true)
    (hgo : optimal_folding_go (d + 1) d b q seed = some (sz, sched)) :
    optimal_folding_strategy d b q seed = SearchResult.ok sz sched := by
  simp only [optimal_folding_strategy]
  rw [if_pos (by simp [hd, hb]), hgo]

theorem optimal_folding_strategy_eq_panic {d b q : Nat} {seed : List Nat}
    (hd : is_power_of_two d = true) (hb : is_power_of_two b = true)
    (hgo : optimal_folding_go (d + 1) d b q seed = none) :
    optimal_folding_strategy d b q seed = SearchResult.panic := by
  simp only [optimal_folding_strategy]
  rw [if_pos (by simp [hd, hb]), hgo]

theorem optimal_folding_strategy_eq_invalid {d b q : Nat} {seed : List Nat}
    (hc : ¬ (is_power_of_two d && is_power_of_two b) = true) :
    optimal_folding_strategy d b q seed = SearchResult.invalidParameter := by
  simp only [optimal_folding_strategy]
  rw [if_neg hc]

/-- C1 counterexample: `degree = 8`, `blowup_factor = 2` and the seed
`[0, 1, 1, 1]` satisfy every hypothesis of the claim (powers of two,
`degree ≥ blowup_factor`), yet the search returns no pair at all: its
layer degree is `8 / 2^3 = 1 < blowup_factor`, so the cap computation at
`optimized_schedule.rs:46` is `(0).ilog2()` and the call panics. -/
theorem claim_C1_counterexample :
    is_power_of_two 8 = true ∧ is_power_of_two 2 = true ∧ (2 : Nat) ≤ 8 ∧
      optimal_folding_strategy 8 2 1 [0, 1, 1, 1] = SearchResult.panic := by
  decide

/-- C1 (amended): for power-of-two parameters and any seed whose current
layer degree `degree / 2^(sum of seed)` is still at least the blowup
factor — in particular the standard seed `[0]` whenever
`degree ≥ blowup_factor` — the search returns a pair, its size is a lower
bound on the estimate of every schedule reachable from the seed within
the per-node cap (the seed included), and the returned schedule is itself
reachable and achieves the returned size.  For seeds folded below the
blowup factor the call instead panics (see the counterexample). -/
theorem claim_C1_optimal_search (degree blowup_factor num_queries : Nat)
    (seed : List Nat) (hd : is_power_of_two degree = true)
    (hb : is_power_of_two blowup_factor = true)
    (_hdb : blowup_factor ≤ degree)
    (hseed : blowup_factor ≤ degree / 2 ^ seed.sum) :
    ∃ sz sched,
      optimal_folding_strategy degree blowup_factor num_queries seed =
        SearchResult.ok sz sched ∧
      (∀ s, Reachable degree blowup_factor seed s →
        sz ≤ estimate_proof_size degree blowup_factor num_queries s) ∧
      Reachable degree blowup_factor seed sched ∧
      sz = estimate_proof_size degree blowup_factor num_queries sched := by
  have hbpos : 0 < blowup_factor := by
    obtain ⟨k, hk⟩ := (is_power_of_two_iff blowup_factor).mp hb
    subst hk
    exact pow_pos (by omega) k
  have hnode : 1 ≤ degree / 2 ^ seed.sum / blowup_factor :=
    (Nat.one_le_div_iff hbpos).mpr hseed
  have hcur : degree / 2 ^ seed.sum < degree + 1 := by
    have := Nat.div_le_self degree (2 ^ seed.sum)
    omega
  have hgo := optimal_folding_go_eq_some degree blowup_factor num_queries
    (degree + 1) seed hnode hcur
  have hach := optimal_folding_core_achieves degree blowup_factor num_queries
    (degree + 1) seed hcur
  refine ⟨_, _, optimal_folding_strategy_eq_ok hd hb (by rw [hgo]), ?_,
    hach.1, hach.2⟩
  intro s hs
  exact le_trans
    (optimal_folding_core_fst_le_reach degree blowup_factor num_queries hs)
    (optimal_folding_core_fst_le_self (degree + 1) degree blowup_factor
      num_queries s)

/-- Witness for the amended C1 at a concrete input. -/
theorem claim_C1_optimal_search_witness :
    is_power_of_two 8 = true ∧ is_power_of_two 2 = true ∧ (2 : Nat) ≤ 8 ∧
      2 ≤ 8 / 2 ^ (([0] : List Nat)).sum ∧
      ∃ sz sched,
        optimal_folding_strategy 8 2 1 [0] = SearchResult.ok sz sched ∧
        (∀ s, Reachable 8 2 [0] s → sz ≤ estimate_proof_size 8 2 1 s) ∧
        Reachable 8 2 [0] sched ∧ sz = estimate_proof_size 8 2 1 sched :=
  ⟨by decide, by decide, by decide, by decide,
    claim_C1_optimal_search 8 2 1 [0] (by decide) (by decide) (by decide)
      (by decide)⟩

theorem div_pow_succ (c f m : Nat) : c / f ^ (m + 1) = c / f / f ^ m := by
  rw [pow_succ, Nat.mul_comm, ← Nat.div_div_eq_div_mul]

/-- Post-condition of the round-counting loop for an actual folding factor
`f ≥ 2`: with enough fuel it performs some number `m` of divisions,
stopping at the first point where one more division would drop below the
remainder target, and never dropping below the target itself. -/
theorem num_rounds_loop_spec {f rem : Nat} (hf : 2 ≤ f) (hrem : 1 ≤ rem) :
    ∀ (fuel current r : Nat), rem ≤ current → current < fuel →
      ∃ m, num_rounds_loop fuel current f rem r = some (current / f ^ m, r + m) ∧
        rem ≤ current / f ^ m ∧ current / f ^ m / f < rem ∧
        ∀ j, j ≤ m → rem ≤ current / f ^ j
  | 0, _, _, _, hfuel => absurd hfuel (by omega)
  | fuel + 1, current, r, hc, hfuel => by
      by_cases hcond : rem ≤ current / f
      · have hpos : 0 < current := by omega
        have hlt : current / f < current := Nat.div_lt_self hpos (by omega)
        obtain ⟨m, heq, hpost1, hpost2, hall⟩ :=
          num_rounds_loop_spec hf hrem fuel (current / f) (r + 1) hcond (by omega)
        refine ⟨m + 1, ?_, ?_, ?_, ?_⟩
        · simp only [num_rounds_loop]
          rw [if_pos hcond, heq, ← div_pow_succ,
            show r + 1 + m = r + (m + 1) by omega]
        · rw [div_pow_succ]
          exact hpost1
        · rw [div_pow_succ]
          exact hpost2
        · intro j hj
          cases j with
          | zero =>
              rw [pow_zero, Nat.div_one]
              exact hc
          | succ j' =>
              rw [div_pow_succ]
              exact hall j' (by omega)
      · refine ⟨0, ?_, ?_, ?_, ?_⟩
        · simp only [num_rounds_loop]
          rw [if_neg hcond, pow_zero, Nat.div_one, Nat.add_zero]
        · rw [pow_zero, Nat.div_one]
          exact hc
        · rw [pow_zero, Nat.div_one]
          omega
        · intro j hj
          have hj0 : j = 0 := by omega
          subst hj0
          rw [pow_zero, Nat.div_one]
          exact hc

/-- With folding factor `2 ^ 0 = 1` the loop body never changes its state,
so as long as the current degree is at least the remainder target the loop
exhausts every fuel: the `while` loop of `num_rounds` never terminates. -/
theorem num_rounds_loop_factor_one {rem : Nat} :
    ∀ (fuel current r : Nat), rem ≤ current →
      num_rounds_loop fuel current 1 rem r = none
  | 0, _, _, _ => rfl
  | fuel + 1, current, r, h => by
      simp only [num_rounds_loop]
      rw [if_pos (by rw [Nat.div_one]; exact h), Nat.div_one]
      exact num_rounds_loop_factor_one fuel current (r + 1) h

/-- Behaviour of `num_rounds` on valid inputs with positive folding
factor: it succeeds, its first component is one more than the number `m`
of loop divisions, and its second component is the adjustment exponent
computed from the final degree `w / (2^ff)^m`. -/
theorem num_rounds_spec {w ff rem : Nat} (hff : 1 ≤ ff) (hrem : 1 ≤ rem)
    (hle : rem ≤ w) :
    ∃ m, num_rounds w ff rem =
        some (1 + m,
          if rem < w / (2 ^ ff) ^ m then ilog2 (w / (2 ^ ff) ^ m / rem) else 0) ∧
      rem ≤ w / (2 ^ ff) ^ m ∧ w / (2 ^ ff) ^ m / 2 ^ ff < rem ∧
      ∀ j, j ≤ m → rem ≤ w / (2 ^ ff) ^ j := by
  have hf2 : 2 ≤ 2 ^ ff := by
    calc 2 = 2 ^ 1 := (pow_one 2).symm
    _ ≤ 2 ^ ff := Nat.pow_le_pow_right (by omega) hff
  obtain ⟨m, heq, h1, h2, h3⟩ :=
    num_rounds_loop_spec hf2 hrem (w + 1) w 1 hle (by omega)
  exact ⟨m, by simp only [num_rounds, heq], h1, h2, h3⟩

theorem simple_schedule_eq_ok {d b q rem ff n e : Nat}
    (hcheck : (is_power_of_two d && is_power_of_two b && is_power_of_two rem &&
      decide (rem ≤ d / b)) = true)
    (hnr : num_rounds (d / b) ff rem = some (n, e))
    (hassert : (is_power_of_two e || e == 0) = true) :
    simple_schedule d b q rem ff =
      SchedResult.ok
        (estimate_proof_size d b q
          (if 1 < e then 0 :: (List.replicate (n - 1) ff ++ [e])
           else 0 :: List.replicate (n - 1) ff))
        (if 1 < e then 0 :: (List.replicate (n - 1) ff ++ [e])
         else 0 :: List.replicate (n - 1) ff) := by
  simp only [simple_schedule]
  rw [if_pos hcheck, hnr]
  exact if_pos hassert

theorem simple_schedule_eq_nonTermination {d b q rem ff : Nat}
    (hcheck : (is_power_of_two d && is_power_of_two b && is_power_of_two rem &&
      decide (rem ≤ d / b)) = true)
    (hnr : num_rounds (d / b) ff rem = none) :
    simple_schedule d b q rem ff = SchedResult.nonTermination := by
  simp only [simple_schedule]
  rw [if_pos hcheck, hnr]

theorem simple_schedule_eq_invalid {d b q rem ff : Nat}
    (hcheck : (is_power_of_two d && is_power_of_two b && is_power_of_two rem &&
      decide (rem ≤ d / b)) = false) :
    simple_schedule d b q rem ff = SchedResult.invalidParameter := by
  simp only [simple_schedule]
  rw [if_neg (by simp [hcheck])]

theorem simple_schedule_ok_inv {d b q rem ff sz : Nat} {sched : List Nat}
    (h : simple_schedule d b q rem ff = SchedResult.ok sz sched) :
    ∃ n e, num_rounds (d / b) ff rem = some (n, e) ∧
      (is_power_of_two e || e == 0) = true ∧
      sched = (if 1 < e then 0 :: (List.replicate (n - 1) ff ++ [e])
               else 0 :: List.replicate (n - 1) ff) ∧
      sz = estimate_proof_size d b q sched := by
  by_cases hcheck : (is_power_of_two d && is_power_of_two b &&
      is_power_of_two rem && decide (rem ≤ d / b)) = true
  · rcases hnr : num_rounds (d / b) ff rem with _ | ⟨n, e⟩
    · rw [simple_schedule_eq_nonTermination hcheck hnr] at h
      simp at h
    · by_cases hassert : (is_power_of_two e || e == 0) = true
      · rw [simple_schedule_eq_ok hcheck hnr hassert] at h
        simp only [SchedResult.ok.injEq] at h
        obtain ⟨hsz, hsched⟩ := h
        exact ⟨n, e, rfl, hassert, hsched.symm, by rw [← hsz, hsched]⟩
      · have hfail : simple_schedule d b q rem ff = SchedResult.assertionFailure := by
          simp only [simple_schedule]
          rw [if_pos hcheck, hnr]
          exact if_neg hassert
        rw [hfail] at h
        simp at h
  · rw [simple_schedule_eq_invalid (by simpa using hcheck)] at h
    simp at h

theorem simple_schedule_eq_assertionFailure {d b q rem ff n e : Nat}
    (hcheck : (is_power_of_two d && is_power_of_two b && is_power_of_two rem &&
      decide (rem ≤ d / b)) = true)
    (hnr : num_rounds (d / b) ff rem = some (n, e))
    (hassert : ¬ (is_power_of_two e || e == 0) = true) :
    simple_schedule d b q rem ff = SchedResult.assertionFailure := by
  simp only [simple_schedule]
  rw [if_pos hcheck, hnr]
  exact if_neg hassert

theorem pow2_pos {n : Nat} (h : is_power_of_two n = true) : 1 ≤ n := by
  obtain ⟨k, rfl⟩ := (is_power_of_two_iff n).mp h
  exact Nat.one_le_two_pow

theorem two_pow_div_pos_exp {A c : Nat} (h : 1 ≤ 2 ^ A / 2 ^ c) : c ≤ A := by
  by_contra hc
  have hlt : (2 : Nat) ^ A < 2 ^ c := Nat.pow_lt_pow_right (by omega) (by omega)
  rw [Nat.div_eq_of_lt hlt] at h
  omega

theorem pow2_div_eq {A c : Nat} (h : c ≤ A) : 2 ^ A / 2 ^ c = 2 ^ (A - c) :=
  Nat.pow_div h (by omega)

/-- Structure of valid `simple_schedule` parameters: the working degree and
the remainder target are powers of two, with comparable exponents. -/
theorem working_pow2 {d b rem : Nat} (hd : is_power_of_two d = true)
    (hb : is_power_of_two b = true) (hr : is_power_of_two rem = true)
    (hle : rem ≤ d / b) :
    ∃ W R, d / b = 2 ^ W ∧ rem = 2 ^ R ∧ R ≤ W := by
  obtain ⟨A, rfl⟩ := (is_power_of_two_iff d).mp hd
  obtain ⟨C, rfl⟩ := (is_power_of_two_iff b).mp hb
  obtain ⟨R, rfl⟩ := (is_power_of_two_iff rem).mp hr
  have hpos : 1 ≤ 2 ^ A / 2 ^ C := le_trans Nat.one_le_two_pow hle
  have hCA : C ≤ A := two_pow_div_pos_exp hpos
  refine ⟨A - C, R, pow2_div_eq hCA, rfl, ?_⟩
  have hle' := hle
  rw [pow2_div_eq hCA] at hle'
  exact (Nat.pow_le_pow_iff_right (by omega)).mp hle'

theorem div_pow_succ_right (c f m : Nat) : c / f ^ (m + 1) = c / f ^ m / f := by
  rw [pow_succ, ← Nat.div_div_eq_div_mul]

theorem replaySchedule_eq_div : ∀ (l : List Nat) (w : Nat),
    replaySchedule w l = w / 2 ^ l.sum
  | [], w => by simp [replaySchedule]
  | a :: l, w => by
      rw [show replaySchedule w (a :: l) = replaySchedule (w / 2 ^ a) l from rfl,
        replaySchedule_eq_div l (w / 2 ^ a), Nat.div_div_eq_div_mul, ← pow_add,
        List.sum_cons]

theorem checks_true_iff {d b rem : Nat} :
    (is_power_of_two d && is_power_of_two b && is_power_of_two rem &&
        decide (rem ≤ d / b)) = true ↔
      is_power_of_two d = true ∧ is_power_of_two b = true ∧
        is_power_of_two rem = true ∧ rem ≤ d / b := by
  simp [Bool.and_eq_true, and_assoc]

/-- C10: with a positive folding factor `simple_schedule` always
terminates (each loop iteration strictly shrinks the degree), whereas with
folding factor `0` (actual factor `2 ^ 0 = 1`) and working degree at least
the remainder target, the round-counting loop exhausts every fuel, i.e.
never terminates: termination needs the unstated precondition
`folding_factor ≥ 1`. -/
theorem claim_C10_termination :
    (∀ degree blowup_factor num_queries rem ff : Nat, 1 ≤ ff →
      simple_schedule degree blowup_factor num_queries rem ff ≠
        SchedResult.nonTermination) ∧
    (∀ fuel w rem r : Nat, rem ≤ w →
      num_rounds_loop fuel w (2 ^ 0) rem r = none) := by
  constructor
  · intro d b q rem ff hff h
    by_cases hcheck : (is_power_of_two d && is_power_of_two b &&
        is_power_of_two rem && decide (rem ≤ d / b)) = true
    · obtain ⟨-, -, hr, hle⟩ := checks_true_iff.mp hcheck
      obtain ⟨m, heq, -, -, -⟩ := num_rounds_spec hff (pow2_pos hr) hle
      by_cases hassert : (is_power_of_two
          (if rem < d / b / (2 ^ ff) ^ m
            then ilog2 (d / b / (2 ^ ff) ^ m / rem) else 0) ||
          (if rem < d / b / (2 ^ ff) ^ m
            then ilog2 (d / b / (2 ^ ff) ^ m / rem) else 0) == 0) = true
      · rw [simple_schedule_eq_ok hcheck heq hassert] at h
        exact SchedResult.noConfusion h
      · rw [simple_schedule_eq_assertionFailure hcheck heq hassert] at h
        exact SchedResult.noConfusion h
    · rw [simple_schedule_eq_invalid (by simpa using hcheck)] at h
      exact SchedResult.noConfusion h
  · intro fuel w rem r h
    rw [pow_zero]
    exact num_rounds_loop_factor_one fuel w r h

/-- Witness for C10 at concrete inputs, one for each conjunct. -/
theorem claim_C10_termination_witness :
    (1 ≤ 1 ∧ simple_schedule 8 2 1 2 1 ≠ SchedResult.nonTermination) ∧
      (2 ≤ 4 ∧ num_rounds_loop 5 4 (2 ^ 0) 2 1 = none) :=
  ⟨⟨by decide, claim_C10_termination.1 8 2 1 2 1 (by decide)⟩,
    ⟨by decide, claim_C10_termination.2 5 4 2 1 (by decide)⟩⟩

/-- C7: the size returned by either scheduler equals `estimate_proof_size`
applied to the schedule returned alongside it. -/
theorem claim_C7_roundtrip :
    (∀ (d b q : Nat) (seed : List Nat) (sz : Nat) (sched : List Nat),
      optimal_folding_strategy d b q seed = SearchResult.ok sz sched →
      sz = estimate_proof_size d b q sched) ∧
    (∀ (d b q rem ff sz : Nat) (sched : List Nat),
      simple_schedule d b q rem ff = SchedResult.ok sz sched →
      sz = estimate_proof_size d b q sched) := by
  constructor
  · intro d b q seed sz sched h
    by_cases hc : (is_power_of_two d && is_power_of_two b) = true
    · obtain ⟨hd, hb⟩ : is_power_of_two d = true ∧ is_power_of_two b = true := by
        simpa [Bool.and_eq_true] using hc
      rcases hgo : optimal_folding_go (d + 1) d b q seed with _ | ⟨sz', sched'⟩
      · rw [optimal_folding_strategy_eq_panic hd hb hgo] at h
        exact SearchResult.noConfusion h
      · rw [optimal_folding_strategy_eq_ok hd hb hgo] at h
        injection h with h1 h2
        subst h1
        subst h2
        have hnode : 1 ≤ d / 2 ^ seed.sum / b :=
          optimal_folding_go_some_pos hgo
        have hcur : d / 2 ^ seed.sum < d + 1 := by
          have := Nat.div_le_self d (2 ^ seed.sum)
          omega
        have hgo2 := optimal_folding_go_eq_some d b q (d + 1) seed hnode hcur
        rw [hgo] at hgo2
        simp only [Option.some.injEq] at hgo2
        have hach := (optimal_folding_core_achieves d b q (d + 1) seed hcur).2
        rw [← hgo2] at hach
        simpa using hach
    · rw [optimal_folding_strategy_eq_invalid hc] at h
      exact SearchResult.noConfusion h
  · intro d b q rem ff sz sched h
    obtain ⟨n, e, -, -, -, hsz⟩ := simple_schedule_ok_inv h
    exact hsz

/-- Witness for C7 at a concrete input. -/
theorem claim_C7_roundtrip_witness :
    simple_schedule 8 2 1 2 1 = SchedResult.ok 34 [0, 1] ∧
      34 = estimate_proof_size 8 2 1 [0, 1] :=
  ⟨by decide, claim_C7_roundtrip.2 8 2 1 2 1 34 [0, 1] (by decide)⟩

/-- C6: the failing input.  All stated preconditions hold (all three
parameters are powers of two, the remainder target is at most the working
degree, the folding factor is positive), yet `num_rounds` computes the
last-round adjustment exponent `3`, which is neither zero nor a power of
two, so the `assert!` in `simple_schedule` fires and the call aborts. -/
theorem claim_C6_assert_fires :
    (is_power_of_two 1024 && is_power_of_two 2 && is_power_of_two 4 &&
      decide ((4 : Nat) ≤ 1024 / 2)) = true ∧
    (1 : Nat) ≤ 4 ∧
    num_rounds (1024 / 2) 4 4 = some (2, 3) ∧
    (is_power_of_two 3 || 3 == 0) = false ∧
    simple_schedule 1024 2 1 4 4 = SchedResult.assertionFailure := by decide

/-- C4 counterexample: at `degree = 2^10`, `blowup_factor = 2`,
`folding_factor = 2`, remainder target `4`, the returned schedule is not
the claimed `[0, 2, 2, 2, 2]`. -/
theorem claim_C4_counterexample :
    (simple_schedule 1024 2 1 4 2).schedule ≠ some [0, 2, 2, 2, 2] := by decide

/-- C4 (amended): at `degree = 2^10`, `blowup_factor = 2`,
`folding_factor = 2`, remainder target `4` (and `num_queries = 1`),
`simple_schedule` returns the schedule `[0, 2, 2, 2]` with exactly 4
entries (the loop stops at working degree `8`, since one more division
would yield `2 < 4`), of estimated size `178`. -/
theorem claim_C4_concrete :
    simple_schedule 1024 2 1 4 2 = SchedResult.ok 178 [0, 2, 2, 2] := by decide

/-- C3 counterexample: with `degree = 2048`, `blowup_factor = 2`,
remainder threshold `4`, `folding_factor = 3` (working degree `1024`), the
claimed threshold-policy schedule would be `[0, 3, 3, 3]` (smallest `n`
with `1024 / 8^(n-1) ≤ 4`, no adjustment), but the code returns
`[0, 3, 3, 2]` — it stops the fixed-factor loop one division earlier and
appends an adjustment round. -/
theorem claim_C3_counterexample :
    (simple_schedule 2048 2 1 4 3).schedule ≠ some [0, 3, 3, 3] := by decide

/-- C3 (amended): on valid inputs the fixed-factor prefix of the schedule
is `[0, ff, …, ff]` with `n` entries, where `n` is the smallest integer
with `working / (2^ff)^n < threshold` (equivalently, the loop keeps the
degree at or above the threshold and stops before a division would drop
below it), and one adjustment entry — the exponent computed by
`num_rounds` — is appended exactly when that exponent exceeds `1`. -/
theorem claim_C3_threshold_rounds (degree blowup_factor num_queries rem ff : Nat)
    (_hd : is_power_of_two degree = true)
    (_hb : is_power_of_two blowup_factor = true)
    (hr : is_power_of_two rem = true)
    (hle : rem ≤ degree / blowup_factor) (hff : 1 ≤ ff) :
    ∃ n e, num_rounds (degree / blowup_factor) ff rem = some (n, e) ∧
      1 ≤ n ∧
      degree / blowup_factor / (2 ^ ff) ^ n < rem ∧
      (∀ m, m < n → rem ≤ degree / blowup_factor / (2 ^ ff) ^ m) ∧
      ∀ sz sched,
        simple_schedule degree blowup_factor num_queries rem ff =
          SchedResult.ok sz sched →
        sched = (if 1 < e then 0 :: (List.replicate (n - 1) ff ++ [e])
                 else 0 :: List.replicate (n - 1) ff) := by
  obtain ⟨m, heq, h1, h2, h3⟩ := num_rounds_spec hff (pow2_pos hr) hle
  refine ⟨1 + m, _, heq, by omega, ?_, ?_, ?_⟩
  · rw [show 1 + m = m + 1 by omega, div_pow_succ_right]
    exact h2
  · intro m' hm'
    exact h3 m' (by omega)
  · intro sz sched hok
    obtain ⟨n', e', hnr', -, hsched, -⟩ := simple_schedule_ok_inv hok
    rw [heq] at hnr'
    simp only [Option.some.injEq, Prod.mk.injEq] at hnr'
    obtain ⟨hn', he'⟩ := hnr'
    rw [hsched, ← hn', ← he']

/-- Witness for the amended C3 at a concrete input. -/
theorem claim_C3_threshold_rounds_witness :
    is_power_of_two 2048 = true ∧ is_power_of_two 2 = true ∧
      is_power_of_two 4 = true ∧ (4 : Nat) ≤ 2048 / 2 ∧ (1 : Nat) ≤ 3 ∧
      ∃ n e, num_rounds (2048 / 2) 3 4 = some (n, e) ∧
        1 ≤ n ∧
        2048 / 2 / (2 ^ 3) ^ n < 4 ∧
        (∀ m, m < n → 4 ≤ 2048 / 2 / (2 ^ 3) ^ m) ∧
        ∀ sz sched,
          simple_schedule 2048 2 1 4 3 = SchedResult.ok sz sched →
          sched = (if 1 < e then 0 :: (List.replicate (n - 1) 3 ++ [e])
                   else 0 :: List.replicate (n - 1) 3) :=
  ⟨by decide, by decide, by decide, by decide, by decide,
    claim_C3_threshold_rounds 2048 2 1 4 3 (by decide) (by decide) (by decide)
      (by decide) (by decide)⟩

/-- C5: on valid inputs, when `simple_schedule` returns a schedule,
replaying its divisions against the working degree lands exactly on the
remainder target when the final adjustment round was appended (exponent
greater than one), and stays at or above the target but strictly below
`target * 2^folding_factor` when no adjustment round was appended. -/
theorem claim_C5_replay_lands (degree blowup_factor num_queries rem ff : Nat)
    (hd : is_power_of_two degree = true)
    (hb : is_power_of_two blowup_factor = true)
    (hr : is_power_of_two rem = true)
    (hle : rem ≤ degree / blowup_factor) (hff : 1 ≤ ff)
    (sz n e : Nat) (sched : List Nat)
    (hok : simple_schedule degree blowup_factor num_queries rem ff =
      SchedResult.ok sz sched)
    (hnr : num_rounds (degree / blowup_factor) ff rem = some (n, e)) :
    (1 < e → replaySchedule (degree / blowup_factor) sched = rem) ∧
    (e ≤ 1 → rem ≤ replaySchedule (degree / blowup_factor) sched ∧
      replaySchedule (degree / blowup_factor) sched < rem * 2 ^ ff) := by
  obtain ⟨m, heq, h1, h2, h3⟩ := num_rounds_spec hff (pow2_pos hr) hle
  rw [heq] at hnr
  simp only [Option.some.injEq, Prod.mk.injEq] at hnr
  obtain ⟨hn, he⟩ := hnr
  subst hn
  subst he
  obtain ⟨n', e', hnr', -, hsched, -⟩ := simple_schedule_ok_inv hok
  rw [heq] at hnr'
  simp only [Option.some.injEq, Prod.mk.injEq] at hnr'
  obtain ⟨hn', he'⟩ := hnr'
  subst hn'
  subst he'
  simp only [Nat.add_sub_cancel_left] at hsched
  constructor
  · intro hlt
    by_cases hcond : rem < degree / blowup_factor / (2 ^ ff) ^ m
    · rw [if_pos hcond] at hlt hsched
      rw [if_pos hlt] at hsched
      obtain ⟨W, R, hw, hR, hRW⟩ := working_pow2 hd hb hr hle
      have hpowm : ((2 : Nat) ^ ff) ^ m = 2 ^ (ff * m) := (pow_mul 2 ff m).symm
      have hpos1 : 1 ≤ degree / blowup_factor / (2 ^ ff) ^ m :=
        le_trans (pow2_pos hr) h1
      have hexp : ff * m ≤ W := by
        apply two_pow_div_pos_exp
        rw [← hw, ← hpowm]
        exact hpos1
      have hval : degree / blowup_factor / (2 ^ ff) ^ m = 2 ^ (W - ff * m) := by
        rw [hw, hpowm, pow2_div_eq hexp]
      have hRF : R < W - ff * m := by
        have hc := hcond
        rw [hval, hR] at hc
        exact (Nat.pow_lt_pow_iff_right (by omega)).mp hc
      have hE : ilog2 (degree / blowup_factor / (2 ^ ff) ^ m / rem) =
          W - ff * m - R := by
        rw [hval, hR, pow2_div_eq (by omega), ilog2_two_pow]
      rw [hsched, replaySchedule_eq_div]
      have hsum : (0 :: (List.replicate m ff ++
          [ilog2 (degree / blowup_factor / (2 ^ ff) ^ m / rem)])).sum =
          ff * m + (W - ff * m - R) := by
        simp [List.sum_replicate, smul_eq_mul, hE, Nat.mul_comm]
      rw [hsum, hw, hR, pow2_div_eq (by omega)]
      congr 1
      omega
    · rw [if_neg hcond] at hlt
      omega
  · intro hle_e
    have hnot : ¬ 1 < (if rem < degree / blowup_factor / (2 ^ ff) ^ m
        then ilog2 (degree / blowup_factor / (2 ^ ff) ^ m / rem) else 0) := by
      omega
    rw [hsched, if_neg hnot, replaySchedule_eq_div]
    have hsum2 : (0 :: List.replicate m ff).sum = ff * m := by
      simp [List.sum_replicate, smul_eq_mul, Nat.mul_comm]
    rw [hsum2, pow_mul]
    exact ⟨h1, (Nat.div_lt_iff_lt_mul (pow_pos (by omega : (0 : Nat) < 2) ff)).mp h2⟩

/-- Witness for C5 at a concrete input with an adjustment round. -/
theorem claim_C5_replay_lands_witness :
    is_power_of_two 2048 = true ∧ (1 : Nat) ≤ 3 ∧
      ((1 < 2 → replaySchedule (2048 / 2) [0, 3, 3, 2] = 4) ∧
        (2 ≤ 1 → 4 ≤ replaySchedule (2048 / 2) [0, 3, 3, 2] ∧
          replaySchedule (2048 / 2) [0, 3, 3, 2] < 4 * 2 ^ 3)) :=
  ⟨by decide, by decide,
    claim_C5_replay_lands 2048 2 1 4 3 (by decide) (by decide) (by decide)
      (by decide) (by decide) 190 3 2 [0, 3, 3, 2] (by decide) (by decide)⟩

/-- C9 counterexample: the input `degree = 8`, `blowup_factor = 2`,
remainder target `2`, `folding_factor = 0` satisfies every power-of-two
and magnitude precondition, so it is not an `InvalidParameter` case, yet
the call does not return a complete pair: the round-counting loop never
terminates. -/
theorem claim_C9_counterexample :
    is_power_of_two 8 = true ∧ is_power_of_two 2 = true ∧
      (2 : Nat) ≤ 8 / 2 ∧
      simple_schedule 8 2 1 2 0 = SchedResult.nonTermination := by decide

/-- C9 (amended): both functions report `InvalidParameter` exactly under
the claimed power-of-two / magnitude conditions.  In every other case,
`optimal_folding_strategy` returns a complete pair when the seed's layer
degree is still at least the blowup factor, and panics (in the
`ilog2`-of-zero cap computation) when the layer degree divided by the
blowup factor is zero; `simple_schedule` returns a complete pair only
when additionally the folding factor is positive and the computed
last-round adjustment exponent is zero or a power of two (otherwise it
diverges or aborts). -/
theorem claim_C9_error_conditions :
    (∀ (d b q : Nat) (seed : List Nat),
      optimal_folding_strategy d b q seed = SearchResult.invalidParameter ↔
        ¬(is_power_of_two d = true ∧ is_power_of_two b = true)) ∧
    (∀ d b q rem ff : Nat,
      simple_schedule d b q rem ff = SchedResult.invalidParameter ↔
        ¬(is_power_of_two d = true ∧ is_power_of_two b = true ∧
          is_power_of_two rem = true ∧ rem ≤ d / b)) ∧
    (∀ (d b q : Nat) (seed : List Nat),
      is_power_of_two d = true → is_power_of_two b = true →
      b ≤ d / 2 ^ seed.sum →
      ∃ sz sched,
        optimal_folding_strategy d b q seed = SearchResult.ok sz sched) ∧
    (∀ (d b q : Nat) (seed : List Nat),
      is_power_of_two d = true → is_power_of_two b = true →
      d / 2 ^ seed.sum / b = 0 →
      optimal_folding_strategy d b q seed = SearchResult.panic) ∧
    (∀ d b q rem ff : Nat,
      is_power_of_two d = true → is_power_of_two b = true →
      is_power_of_two rem = true → rem ≤ d / b → 1 ≤ ff →
      (∀ n e, num_rounds (d / b) ff rem = some (n, e) →
        (is_power_of_two e || e == 0) = true) →
      ∃ sz sched, simple_schedule d b q rem ff = SchedResult.ok sz sched) := by
  refine ⟨?_, ?_, ?_, ?_, ?_⟩
  · intro d b q seed
    by_cases hc : (is_power_of_two d && is_power_of_two b) = true
    · obtain ⟨hd, hb⟩ : is_power_of_two d = true ∧ is_power_of_two b = true := by
        simpa [Bool.and_eq_true] using hc
      constructor
      · intro h
        rcases hgo : optimal_folding_go (d + 1) d b q seed with _ | ⟨sz, sched⟩
        · rw [optimal_folding_strategy_eq_panic hd hb hgo] at h
          exact SearchResult.noConfusion h
        · rw [optimal_folding_strategy_eq_ok hd hb hgo] at h
          exact SearchResult.noConfusion h
      · intro h
        exact absurd ⟨hd, hb⟩ h
    · constructor
      · intro _
        simp only [Bool.and_eq_true] at hc
        exact hc
      · intro _
        exact optimal_folding_strategy_eq_invalid hc
  · intro d b q rem ff
    by_cases hcheck : (is_power_of_two d && is_power_of_two b &&
        is_power_of_two rem && decide (rem ≤ d / b)) = true
    · constructor
      · intro h
        rcases hnr : num_rounds (d / b) ff rem with _ | ⟨n, e⟩
        · rw [simple_schedule_eq_nonTermination hcheck hnr] at h
          exact SchedResult.noConfusion h
        · by_cases hassert : (is_power_of_two e || e == 0) = true
          · rw [simple_schedule_eq_ok hcheck hnr hassert] at h
            exact SchedResult.noConfusion h
          · rw [simple_schedule_eq_assertionFailure hcheck hnr hassert] at h
            exact SchedResult.noConfusion h
      · intro h
        exact absurd (checks_true_iff.mp hcheck) h
    · constructor
      · intro _
        exact fun hcon => hcheck (checks_true_iff.mpr hcon)
      · intro _
        exact simple_schedule_eq_invalid (by simpa using hcheck)
  · intro d b q seed hd hb hseed
    have hbpos : 0 < b := pow2_pos hb
    have hnode : 1 ≤ d / 2 ^ seed.sum / b :=
      (Nat.one_le_div_iff hbpos).mpr hseed
    have hcur : d / 2 ^ seed.sum < d + 1 := by
      have := Nat.div_le_self d (2 ^ seed.sum)
      omega
    have hgo := optimal_folding_go_eq_some d b q (d + 1) seed hnode hcur
    exact ⟨_, _, optimal_folding_strategy_eq_ok hd hb (by rw [hgo])⟩
  · intro d b q seed hd hb hzero
    exact optimal_folding_strategy_eq_panic hd hb
      (optimal_folding_go_none_of_zero d d b q seed hzero)
  · intro d b q rem ff hd hb hr hle hff hasserts
    have hcheck : (is_power_of_two d && is_power_of_two b &&
        is_power_of_two rem && decide (rem ≤ d / b)) = true :=
      checks_true_iff.mpr ⟨hd, hb, hr, hle⟩
    obtain ⟨m, heq, -, -, -⟩ := num_rounds_spec hff (pow2_pos hr) hle
    have hassert := hasserts _ _ heq
    exact ⟨_, _, simple_schedule_eq_ok hcheck heq hassert⟩

/-- Witness for the amended C9 at a concrete input. -/
theorem claim_C9_error_conditions_witness :
    is_power_of_two 8 = true ∧ (1 : Nat) ≤ 1 ∧
      ∃ sz sched, simple_schedule 8 2 1 2 1 = SchedResult.ok sz sched :=
  ⟨by decide, by decide,
    claim_C9_error_conditions.2.2.2.2 8 2 1 2 1 (by decide) (by decide)
      (by decide) (by decide) (by decide)
      (fun n e h => by
        rw [show num_rounds (8 / 2) 1 2 = some (2, 0) from by decide] at h
        simp only [Option.some.injEq, Prod.mk.injEq] at h
        rw [← h.2]
        decide)⟩
